import Mathlib

set_option maxHeartbeats 1000000

/-!
Shallow embedding of `main.py` from jsvana/new_callsigns.

The program loads four kinds of pipe-delimited FCC record files, aggregates
records sharing a `unique_system_identifier` into `Person` bundles, and
resolves field lookups across those bundles with read-time transforms.
Python's ordered dictionaries are modelled as insertion-ordered association
lists, exceptions as `Except` values over an explicit exception type, and the
filesystem as a map from record type to a file outcome.
-/

/-- The four record types of the program (`Header`, `Amateur`, `Entity`,
`Vanity` classes in `main.py`). -/
inductive RecordType
  | header
  | amateur
  | entity
  | vanity
  deriving DecidableEq

/-- `RECORD_TYPES` from `main.py`: the fixed processing sequence used by
`People.from_folder`. -/
def RECORD_TYPES : List RecordType := [.header, .amateur, .entity, .vanity]

/-- `RECORD_TYPE` tags of the four record classes; used to locate the
`<TAG>.dat` file of each type. -/
def recordTypeTag : RecordType → String
  | .header => "HD"
  | .amateur => "AM"
  | .entity => "EN"
  | .vanity => "VC"

/-- `Header.FIELDS` from `main.py`, verbatim.  Note the duplicated names
`reserved` (positions 11 and 20, 0-indexed) and `broadcast_services`
(positions 45 and 47). -/
def Header.FIELDS : List String := [
  "record_type",
  "unique_system_identifier",
  "uls_file_number",
  "ebf_number",
  "call_sign",
  "license_status",
  "radio_service_code",
  "grant_date",
  "expired_date",
  "cancellation_date",
  "eligibility_rule_num",
  "reserved",
  "alien",
  "alien_government",
  "alien_corporation",
  "alien_officer",
  "alien_control",
  "revoked",
  "convicted",
  "adjudged",
  "reserved",
  "common_carrier",
  "non_common_carrier",
  "private_comm",
  "fixed",
  "mobile",
  "radiolocation",
  "satellite",
  "test",
  "interconnected_service",
  "certifier_first_name",
  "certifier_mi",
  "certifier_last_name",
  "certifier_suffix",
  "certifier_title",
  "female",
  "black",
  "native_american",
  "hawaiian",
  "asian",
  "white",
  "hispanic",
  "effective_date",
  "last_action_date",
  "auction_id",
  "broadcast_services",
  "band_manager",
  "broadcast_services",
  "alien_ruling",
  "licensee_name_change"]

/-- `Amateur.FIELDS` from `main.py`, verbatim. -/
def Amateur.FIELDS : List String := [
  "record_type",
  "unique_system_identifier",
  "uls_file_number",
  "ebf_number",
  "call_sign",
  "operator_class",
  "group_code",
  "region_code",
  "trustee_call_sign",
  "trustee_indicator",
  "physician_certification",
  "ve_signature",
  "systematic_call_sign_change",
  "vanity_call_sign_change",
  "vanity_relationship",
  "previous_call_sign",
  "previous_operator_class",
  "trustee_name"]

/-- `Entity.FIELDS` from `main.py`, verbatim. -/
def Entity.FIELDS : List String := [
  "record_type",
  "unique_system_identifier",
  "uls_file_number",
  "ebf_number",
  "call_sign",
  "entity_type",
  "licensee_id",
  "entity_name",
  "first_name",
  "mi",
  "last_name",
  "suffix",
  "phone",
  "fax",
  "email",
  "street_address",
  "city",
  "state",
  "zip_code",
  "po_box",
  "attention_line",
  "sgin",
  "fCC_registration_number",
  "applicant_type_code",
  "applicant_type_code_other",
  "status_code",
  "status_date"]

/-- `Vanity.FIELDS` from `main.py`, verbatim. -/
def Vanity.FIELDS : List String := [
  "record_type",
  "unique_system_identifier",
  "uls_file_number",
  "ebf_number",
  "order_of_preference",
  "requested_call_sign"]

/-- The schema field list of a record type (`cls.FIELDS`). -/
def recordFIELDS : RecordType → List String
  | .header => Header.FIELDS
  | .amateur => Amateur.FIELDS
  | .entity => Entity.FIELDS
  | .vanity => Vanity.FIELDS

/-! ### The `titleize` transform

`Entity.TRANSFORMS` applies `inflection.titleize` at read time.  The
following functions embed `inflection`'s `underscore`, `humanize` and
`titleize` over `List Char` for ASCII text: `\w` of the Python regexes is
modelled as ASCII letters, digits and underscore, and `[A-Z]`, `[a-z]`,
`\d` as the corresponding ASCII classes. -/

/-- A regex word character (`\w`) restricted to ASCII. -/
def isWordChar (c : Char) : Bool := c.isAlpha || c.isDigit || c = '_'

/-- First substitution of `inflection.underscore`: insert `_` between a run
of capitals and a capital that starts a lowercase word
(`([A-Z]+)([A-Z][a-z])` → `\1_\2`). -/
def underscoreSub1 : List Char → List Char
  | a :: b :: c :: rest =>
      if a.isUpper && b.isUpper && c.isLower then a :: '_' :: underscoreSub1 (b :: c :: rest)
      else a :: underscoreSub1 (b :: c :: rest)
  | l => l

/-- Second substitution of `inflection.underscore`: insert `_` between a
lowercase letter or digit and a capital (`([a-z\d])([A-Z])` → `\1_\2`). -/
def underscoreSub2 : List Char → List Char
  | a :: b :: rest =>
      if (a.isLower || a.isDigit) && b.isUpper then a :: '_' :: underscoreSub2 (b :: rest)
      else a :: underscoreSub2 (b :: rest)
  | l => l

/-- `inflection.underscore`: the two substitutions, then `-` → `_`, then
lowercase. -/
def underscoreChars (l : List Char) : List Char :=
  ((underscoreSub2 (underscoreSub1 l)).map fun c => if c = '-' then '_' else c).map Char.toLower

/-- Strip a trailing `_id` (`re.sub(r"_id$", "", word)` in
`inflection.humanize`). -/
def stripIdSuffix (l : List Char) : List Char :=
  if (l.reverse.take 3) = ['d', 'i', '_'] then (l.reverse.drop 3).reverse else l

/-- Uppercase a leading word character (`re.sub(r"^\w", ..., word)` in
`inflection.humanize`). -/
def capitalizeFirstWordChar : List Char → List Char
  | [] => []
  | c :: rest => if isWordChar c then c.toUpper :: rest else c :: rest

/-- `inflection.humanize`: strip `_id`, `_` → space, lowercase, uppercase the
first word character. -/
def humanizeChars (l : List Char) : List Char :=
  capitalizeFirstWordChar
    (((stripIdSuffix l).map fun c => if c = '_' then ' ' else c).map Char.toLower)

/-- The final substitution of `inflection.titleize`:
`re.sub(r"\b('?\w)", lambda m: m.group(1).capitalize(), ...)`.  The boolean
argument records whether the previous character was a word character, which
determines the `\b` word boundaries; a matched group `'x` keeps the
apostrophe and lowercases `x` (Python `str.capitalize`), a matched single
word character is uppercased. -/
def titleizeGo : Bool → List Char → List Char
  | _, [] => []
  | prevW, '\'' :: c :: rest =>
      if prevW && isWordChar c then '\'' :: c.toLower :: titleizeGo true rest
      else '\'' :: titleizeGo false (c :: rest)
  | prevW, c :: rest =>
      if !prevW && isWordChar c then c.toUpper :: titleizeGo true rest
      else c :: titleizeGo (isWordChar c) rest

/-- `inflection.titleize`, the transform used by `Entity.TRANSFORMS`. -/
def titleize (s : String) : String :=
  ⟨titleizeGo false (humanizeChars (underscoreChars s.data))⟩

/-- `Entity.TRANSFORMS` from `main.py`: title-case `entity_name`,
`first_name` and `last_name` when read. -/
def Entity.TRANSFORMS : List (String × (String → String)) :=
  [("entity_name", titleize), ("first_name", titleize), ("last_name", titleize)]

/-- `cls.TRANSFORMS` for each record class; `Header`, `Amateur` and `Vanity`
inherit the empty `Record.TRANSFORMS`. -/
def recordTRANSFORMS : RecordType → List (String × (String → String))
  | .entity => Entity.TRANSFORMS
  | _ => []

/-! ### Records and parsing -/

/-- First-match association-list lookup (used where Python reads a mapping
whose keys are unique). -/
def assocLookup {α β : Type} [DecidableEq α] (k : α) : List (α × β) → Option β
  | [] => none
  | (k2, v) :: rest => if k2 = k then some v else assocLookup k rest

/-- Last-match association-list lookup: models a Python `dict` built from a
sequence of key/value pairs, where a later pair for the same key overwrites
an earlier one. -/
def lastLookup {α β : Type} [DecidableEq α] (k : α) : List (α × β) → Option β
  | [] => none
  | (k2, v) :: rest =>
      match lastLookup k rest with
      | some v2 => some v2
      | none => if k2 = k then some v else none

/-- Python `str.split(sep)` for a single-character separator, over
`List Char`: always returns at least one (possibly empty) piece. -/
def splitChar (sep : Char) : List Char → List (List Char)
  | [] => [[]]
  | c :: rest =>
      let r := splitChar sep rest
      if c = sep then [] :: r
      else
        match r with
        | [] => [[c]]
        | w :: ws => (c :: w) :: ws

/-- Python `str.split(sep)` on strings. -/
def pySplit (sep : Char) (s : String) : List String :=
  (splitChar sep s.data).map fun cs => ⟨cs⟩

/-- A parsed record: its class (record type) and the attributes set by
`Record.__init__` — the zip of the class `FIELDS` with the pipe-split line.
Attribute lookup on the record is last-match over this list, matching the
`dict` comprehension in `Record.from_line` (a duplicated field name keeps
the later column). -/
structure Record where
  rtype : RecordType
  fields : List (String × String)
  deriving DecidableEq

/-- `getattr(record, attr)` / `hasattr(record, attr)` for the attributes set
from the parsed line: `none` when the attribute was never set. -/
def Record.getAttr (r : Record) (attr : String) : Option String :=
  lastLookup attr r.fields

/-- `Record.from_line`: split the line on `|` and zip positionally against
the class `FIELDS` (the zip truncates to the shorter side). -/
def Record.from_line (rt : RecordType) (line : String) : Record :=
  ⟨rt, (recordFIELDS rt).zip (pySplit '|' line)⟩

/-- The loop body of `Record.load_file` on a successfully read file: split
into lines, drop empty lines, parse each remaining line in file order. -/
def parseContent (rt : RecordType) (content : String) : List Record :=
  ((pySplit '\n' content).filter fun l => l != "").map (Record.from_line rt)

/-- The Python exceptions relevant to the program.  `FileNotFoundError` and
`PermissionError` are both subclasses of `IOError` (= `OSError`) in
Python 3; `RecordNonexistentException` and `AttributeError` are not. -/
inductive PyExc
  | FileNotFoundError
  | PermissionError
  | RecordNonexistentException
  | AttributeError
  deriving DecidableEq

/-- Whether `except IOError` catches the exception. -/
def PyExc.isIOError : PyExc → Bool
  | .FileNotFoundError => true
  | .PermissionError => true
  | _ => false

/-- The outcome of trying to open one record type's `.dat` file: the file is
absent, opening fails with a permission error, or the file is read in full. -/
inductive FileOutcome
  | missing
  | permission
  | ok (content : String)
  deriving DecidableEq

/-- `open(path, 'r')` followed by `f.read()`: the exception raised, or the
file's content. -/
def openFile : FileOutcome → Except PyExc String
  | .missing => .error .FileNotFoundError
  | .permission => .error .PermissionError
  | .ok content => .ok content

/-- `Record.load_file`: read and parse the record type's file; the
`except IOError` clause converts any `IOError` into
`RecordNonexistentException`. -/
def Record.load_file (rt : RecordType) (file : FileOutcome) : Except PyExc (List Record) :=
  match openFile file with
  | .ok content => .ok (parseContent rt content)
  | .error e => if e.isIOError then .error .RecordNonexistentException else .error e

/-! ### Persons and the people collection -/

/-- One aggregated license holder: `self.records`, a `defaultdict(list)`
from record type to the records of that type, in bucket insertion order. -/
structure Person where
  records : List (RecordType × List Record)
  deriving DecidableEq

/-- `defaultdict(list)` append: `self.records[record_type].append(record)` —
append to an existing bucket, or create the bucket at the end. -/
def addToBucket : List (RecordType × List Record) → RecordType → Record →
    List (RecordType × List Record)
  | [], rt, r => [(rt, [r])]
  | (rt2, rs) :: rest, rt, r =>
      if rt2 = rt then (rt2, rs ++ [r]) :: rest
      else (rt2, rs) :: addToBucket rest rt r

/-- `Person.add_record`. -/
def Person.add_record (p : Person) (rt : RecordType) (r : Record) : Person :=
  ⟨addToBucket p.records rt r⟩

/-- The read-time transform application in `Person.__getattr__`:
`if attr in record.__class__.TRANSFORMS: TRANSFORMS[attr](attr_val)`. -/
def applyTRANSFORMS (rt : RecordType) (attr v : String) : String :=
  match assocLookup attr (recordTRANSFORMS rt) with
  | some f => f v
  | none => v

/-- The inner loop of `Person.__getattr__` over one bucket: every non-empty
value of the requested attribute across the bucket's records, transformed
at read time. -/
def bucketEntries (attr : String) (recs : List Record) : List String :=
  recs.filterMap fun r =>
    match r.getAttr attr with
    | none => none
    | some v => if v = "" then none else some (applyTRANSFORMS r.rtype attr v)

/-- The bucket loop of `Person.__getattr__`: scan buckets in insertion
order; the first bucket with any entries wins and the entries are joined
with `", "`; otherwise the default `"-"`. -/
def getattrGo (attr : String) : List (RecordType × List Record) → String
  | [] => "-"
  | (_, recs) :: rest =>
      let entries := bucketEntries attr recs
      if entries.isEmpty then getattrGo attr rest
      else String.intercalate ", " entries

/-- `Person.__getattr__` for a requested field name (invoked by Python for
any name that is not a real instance attribute, i.e. for every schema field
lookup). -/
def Person.getattr (p : Person) (attr : String) : String :=
  getattrGo attr p.records

/-- The people collection: `self.people`, a `defaultdict(Person)` from
unique system identifier to `Person`, in insertion order. -/
structure People where
  people : List (String × Person)
  deriving DecidableEq

/-- `self.people[ident].add_record(record_type, record)` on the
`defaultdict(Person)`: update the existing entry, or default-construct a
`Person` for `ident` at the end and add the record to it. -/
def insertRecord : List (String × Person) → String → RecordType → Record →
    List (String × Person)
  | [], ident, rt, r => [(ident, Person.add_record ⟨[]⟩ rt r)]
  | (id2, p) :: rest, ident, rt, r =>
      if id2 = ident then (id2, p.add_record rt r) :: rest
      else (id2, p) :: insertRecord rest ident rt r

/-- The insertion loop of `People.load_records` over the records loaded for
one type: each record is inserted under its own
`record.unique_system_identifier`; a record without that attribute raises
`AttributeError` (which no caller catches). -/
def People.load_records (ppl : List (String × Person)) (rt : RecordType) :
    List Record → Except PyExc (List (String × Person))
  | [] => .ok ppl
  | r :: rest =>
      match r.getAttr "unique_system_identifier" with
      | none => .error .AttributeError
      | some ident => People.load_records (insertRecord ppl ident rt r) rt rest

/-- The loop of `People.from_folder` over the remaining record types: `try`
loading and inserting the type's records, `except RecordNonexistentException:
pass`, and let any other exception propagate. -/
def People.from_folder_go (fs : RecordType → FileOutcome) :
    List RecordType → List (String × Person) → Except PyExc (List (String × Person))
  | [], ppl => .ok ppl
  | rt :: rest, ppl =>
      match Record.load_file rt (fs rt) with
      | .error e =>
          if e = .RecordNonexistentException then People.from_folder_go fs rest ppl
          else .error e
      | .ok rs =>
          match People.load_records ppl rt rs with
          | .error e =>
              if e = .RecordNonexistentException then People.from_folder_go fs rest ppl
              else .error e
          | .ok ppl2 => People.from_folder_go fs rest ppl2

/-- `People.from_folder`: process the record types in the fixed
`RECORD_TYPES` order over the folder's files. -/
def People.from_folder (fs : RecordType → FileOutcome) : Except PyExc People :=
  (People.from_folder_go fs RECORD_TYPES []).map People.mk

/-- Python attribute lookup on a `People` instance: `__init__` sets only
`people`, so that is the only instance attribute. -/
def People.lookupAttr (ppl : People) (name : String) : Option (List (String × Person)) :=
  if name = "people" then some ppl.people else none

/-- `People.__str__`: `', '.join(self.records.keys())` — reads the
`records` attribute, which lookup must find before the keys can be joined;
a failed lookup raises `AttributeError`. -/
def People.str (ppl : People) : Except PyExc String :=
  match ppl.lookupAttr "records" with
  | some d => .ok (String.intercalate ", " (d.map Prod.fst))
  | none => .error .AttributeError

/-! ### The `print` subcommand's control flow after the download -/

/-- The `attributes` list of `print_data`. -/
def printAttributes : List String :=
  ["entity_name", "call_sign", "operator_class", "requested_call_sign"]

/-- The incomplete-archive message printed to stderr by `print_data`. -/
def incompleteMsg : String :=
  "Incomplete zipfile retrieved from FCC (probably need to go back a day)"

/-- What a run of the `print` subcommand produces: the process exit code,
the stderr message (if any), and the table rows handed to `tabulate`. -/
structure RunResult where
  exitCode : Nat
  errOutput : Option String
  table : List (List String)
  deriving DecidableEq

/-- `print_data` after the download: if the archive has at most one entry,
report the incomplete archive and `sys.exit(1)`; otherwise extract, build
the people collection, filter by `--operator-class` when given, render the
rows, and return normally (process exit code 0). -/
def print_data (entries : List String) (fs : RecordType → FileOutcome)
    (operatorClass : Option String) : Except PyExc RunResult :=
  if entries.length ≤ 1 then
    .ok ⟨1, some incompleteMsg, []⟩
  else
    match People.from_folder fs with
    | .error e => .error e
    | .ok ppl =>
        let rows := ppl.people.filterMap fun pr =>
          match operatorClass with
          | some oc =>
              if Person.getattr pr.2 "operator_class" = oc then
                some (printAttributes.map (Person.getattr pr.2))
              else none
          | none => some (printAttributes.map (Person.getattr pr.2))
        .ok ⟨0, none, rows⟩

/-! ### Specification-side definitions used to state the claims -/

/-- The resolution algorithm exactly as the specification words it: walk the
fixed sequence header, amateur, entity, vanity; for each type the person has
a bucket for, collect every non-empty transformed value of the requested
field across the bucket's records; the first bucket with any values wins,
joined with `", "`; otherwise `"-"`. -/
def resolveSpecGo (attr : String) (buckets : List (RecordType × List Record)) :
    List RecordType → String
  | [] => "-"
  | rt :: rest =>
      match assocLookup rt buckets with
      | none => resolveSpecGo attr buckets rest
      | some recs =>
          let entries := bucketEntries attr recs
          if entries.isEmpty then resolveSpecGo attr buckets rest
          else String.intercalate ", " entries

/-- Field resolution in the specification's fixed record-type order. -/
def resolveSpec (p : Person) (attr : String) : String :=
  resolveSpecGo attr p.records RECORD_TYPES

/-- Whether a record type's file is present (readable) in the folder. -/
def isPresent (fs : RecordType → FileOutcome) (rt : RecordType) : Bool :=
  match fs rt with
  | .ok _ => true
  | _ => false

/-- The record types whose file is present (readable) in the folder. -/
def presentTypes (fs : RecordType → FileOutcome) : List RecordType :=
  RECORD_TYPES.filter (isPresent fs)

/-- The records `load_file` would parse for one record type (empty when the
file cannot be read). -/
def loadedRecords (fs : RecordType → FileOutcome) (rt : RecordType) : List Record :=
  match fs rt with
  | .ok c => parseContent rt c
  | _ => []

/-- Every record parsed from the folder's present files carries a
`unique_system_identifier` attribute. -/
def wellKeyed (fs : RecordType → FileOutcome) : Bool :=
  RECORD_TYPES.all fun rt =>
    (loadedRecords fs rt).all fun r => (r.getAttr "unique_system_identifier").isSome

/-- Record `r` is stored in the collection under identifier `ident` in the
bucket of record type `rt`. -/
def PeopleContains (ppl : List (String × Person)) (ident : String) (rt : RecordType)
    (r : Record) : Prop :=
  ∃ p recs, (ident, p) ∈ ppl ∧ (rt, recs) ∈ p.records ∧ r ∈ recs

instance {ε α : Type} [DecidableEq ε] [DecidableEq α] : DecidableEq (Except ε α) := fun x y =>
  match x, y with
  | .ok a, .ok b =>
      if h : a = b then isTrue (by rw [h]) else isFalse (by intro hc; cases hc; exact h rfl)
  | .error a, .error b =>
      if h : a = b then isTrue (by rw [h]) else isFalse (by intro hc; cases hc; exact h rfl)
  | .ok _, .error _ => isFalse (by intro hc; cases hc)
  | .error _, .ok _ => isFalse (by intro hc; cases hc)

example : titleize "john smith" = "John Smith" := by decide
example : pySplit '|' "a||b" = ["a", "", "b"] := by decide
example : pySplit '\n' "" = [""] := by decide
example : (Record.from_line .vanity "VC|7|x").fields =
    [("record_type", "VC"), ("unique_system_identifier", "7"), ("uls_file_number", "x")] := by
  decide

/-! ### Lookup and zip lemmas -/

theorem lastLookup_eq_none_iff {α β : Type} [DecidableEq α] (k : α) (l : List (α × β)) :
    lastLookup k l = none ↔ ∀ p ∈ l, p.1 ≠ k := by
  induction l with
  | nil => simp [lastLookup]
  | cons hd tl ih =>
      obtain ⟨k2, v⟩ := hd
      constructor
      · intro h p hp
        cases htl : lastLookup k tl with
        | some v2 => rw [lastLookup, htl] at h; simp at h
        | none =>
            rw [lastLookup, htl] at h
            by_cases hk : k2 = k
            · simp [hk] at h
            · rcases List.mem_cons.mp hp with hp | hp
              · rw [hp]; simpa using hk
              · exact (ih.mp htl) p hp
      · intro h
        have htl : lastLookup k tl = none :=
          ih.mpr fun p hp => h p (List.mem_cons_of_mem _ hp)
        have hk : k2 ≠ k := by
          have := h (k2, v) (List.mem_cons_self _ _)
          simpa using this
        rw [lastLookup, htl]
        simp [hk]

theorem mem_zip_of_getElem? {α β : Type} (l₁ : List α) (l₂ : List β) (n : Nat) (a : α) (b : β)
    (h₁ : l₁[n]? = some a) (h₂ : l₂[n]? = some b) : (a, b) ∈ l₁.zip l₂ := by
  induction n generalizing l₁ l₂ with
  | zero =>
      cases l₁ with
      | nil => simp at h₁
      | cons x xs =>
          cases l₂ with
          | nil => simp at h₂
          | cons y ys =>
              simp at h₁ h₂
              subst h₁; subst h₂
              exact List.mem_cons_self _ _
  | succ n ih =>
      cases l₁ with
      | nil => simp at h₁
      | cons x xs =>
          cases l₂ with
          | nil => simp at h₂
          | cons y ys =>
              simp only [List.getElem?_cons_succ] at h₁ h₂
              exact List.mem_cons_of_mem _ (ih xs ys h₁ h₂)

theorem lastLookup_zip_of_get (flds cols : List String) (k : String) (n : Nat)
    (h1 : flds[n]? = some k) (h2 : k ∉ flds.drop (n + 1)) (h3 : n < cols.length) :
    lastLookup k (flds.zip cols) = cols[n]? := by
  induction n generalizing flds cols with
  | zero =>
      cases flds with
      | nil => simp at h1
      | cons f fl =>
          cases cols with
          | nil => simp at h3
          | cons c cl =>
              simp only [List.getElem?_cons_zero, Option.some.injEq] at h1
              subst h1
              have hnone : lastLookup f (fl.zip cl) = none := by
                rw [lastLookup_eq_none_iff]
                intro p hp hk
                apply h2
                simp only [List.drop_succ_cons, List.drop_zero]
                have := (List.of_mem_zip hp).1
                rwa [hk] at this
              rw [show (f :: fl).zip (c :: cl) = (f, c) :: fl.zip cl from rfl,
                lastLookup, hnone]
              simp
  | succ n ih =>
      cases flds with
      | nil => simp at h1
      | cons f fl =>
          cases cols with
          | nil => simp at h3
          | cons c cl =>
              have h1' : fl[n]? = some k := by simpa using h1
              have h2' : k ∉ fl.drop (n + 1) := by
                simpa [List.drop_succ_cons] using h2
              have h3' : n < cl.length := by simpa using h3
              have hrec := ih fl cl h1' h2' h3'
              obtain ⟨v, hv⟩ : ∃ v, cl[n]? = some v :=
                ⟨cl.get ⟨n, h3'⟩, List.getElem?_eq_getElem h3'⟩
              show lastLookup k ((f, c) :: fl.zip cl) = (c :: cl)[n + 1]?
              rw [lastLookup, hrec, hv]
              simpa using hv.symm

theorem lastLookup_zip_some (flds cols : List String) (k v : String)
    (h : lastLookup k (flds.zip cols) = some v) :
    ∃ n, flds[n]? = some k ∧ cols[n]? = some v ∧
      ∀ m, n < m → flds[m]? = some k → cols.length ≤ m := by
  induction flds generalizing cols v with
  | nil => simp [lastLookup] at h
  | cons f fl ih =>
      cases cols with
      | nil => simp [lastLookup] at h
      | cons c cl =>
          rw [show (f :: fl).zip (c :: cl) = (f, c) :: fl.zip cl from rfl, lastLookup] at h
          cases htl : lastLookup k (fl.zip cl) with
          | some v2 =>
              rw [htl] at h
              simp only [Option.some.injEq] at h
              subst h
              obtain ⟨n, hn1, hn2, hn3⟩ := ih cl v2 htl
              refine ⟨n + 1, by simpa using hn1, by simpa using hn2, ?_⟩
              intro m hm hf
              cases m with
              | zero => omega
              | succ m' =>
                  have := hn3 m' (by omega) (by simpa using hf)
                  simp only [List.length_cons]
                  omega
          | none =>
              rw [htl] at h
              by_cases hk : f = k
              · subst hk
                simp at h
                subst h
                refine ⟨0, by simp, by simp, ?_⟩
                intro m hm hf
                cases m with
                | zero => omega
                | succ m' =>
                    by_contra hlt
                    push_neg at hlt
                    simp only [List.length_cons] at hlt
                    have hm' : m' < cl.length := by omega
                    obtain ⟨b, hb⟩ : ∃ b, cl[m']? = some b :=
                      ⟨cl.get ⟨m', hm'⟩, List.getElem?_eq_getElem hm'⟩
                    have hfm : fl[m']? = some f := by simpa using hf
                    have hmem : (f, b) ∈ fl.zip cl := mem_zip_of_getElem? fl cl m' f b hfm hb
                    exact (lastLookup_eq_none_iff f _).mp htl (f, b) hmem rfl
              · simp [hk] at h

theorem map_fst_zip_take {α β : Type} (l₁ : List α) (l₂ : List β) :
    (l₁.zip l₂).map Prod.fst = l₁.take l₂.length := by
  induction l₁ generalizing l₂ with
  | nil => simp
  | cons a l ih =>
      cases l₂ with
      | nil => simp
      | cons b l₂ => simp [ih]

theorem map_snd_zip_take {α β : Type} (l₁ : List α) (l₂ : List β) :
    (l₁.zip l₂).map Prod.snd = l₂.take l₁.length := by
  induction l₁ generalizing l₂ with
  | nil => simp
  | cons a l ih =>
      cases l₂ with
      | nil => simp
      | cons b l₂ => simp [ih]

/-! ### Bucket-entry lemmas -/

theorem bucketEntry_none (attr : String) (r : Record)
    (h : r.getAttr attr = none ∨ r.getAttr attr = some "") :
    (match r.getAttr attr with
      | none => none
      | some v => if v = "" then none else some (applyTRANSFORMS r.rtype attr v))
      = (none : Option String) := by
  rcases h with h | h <;> simp [h]

theorem bucketEntries_eq_nil (attr : String) (recs : List Record)
    (h : ∀ r ∈ recs, r.getAttr attr = none ∨ r.getAttr attr = some "") :
    bucketEntries attr recs = [] := by
  induction recs with
  | nil => rfl
  | cons r rest ih =>
      have hr := bucketEntry_none attr r (h r (List.mem_cons_self _ _))
      have hrest := ih fun r2 hr2 => h r2 (List.mem_cons_of_mem _ hr2)
      simp only [bucketEntries, List.filterMap_cons] at hrest ⊢
      rw [hr]
      exact hrest

/-- C2: for every person and every field name that is absent or empty in all
of the person's buckets, `Person.__getattr__` returns the default sentinel
`"-"`. -/
theorem spec_C2 (p : Person) (attr : String)
    (h : ∀ pr ∈ p.records, ∀ r ∈ pr.2, r.getAttr attr = none ∨ r.getAttr attr = some "") :
    Person.getattr p attr = "-" := by
  suffices hgen : ∀ buckets : List (RecordType × List Record),
      (∀ pr ∈ buckets, ∀ r ∈ pr.2, r.getAttr attr = none ∨ r.getAttr attr = some "") →
      getattrGo attr buckets = "-" from hgen p.records h
  intro buckets
  induction buckets with
  | nil => intro _; rfl
  | cons b rest ih =>
      intro hb
      obtain ⟨rt, recs⟩ := b
      have hnil : bucketEntries attr recs = [] :=
        bucketEntries_eq_nil attr recs (hb (rt, recs) (List.mem_cons_self _ _))
      simp only [getattrGo, hnil, List.isEmpty_nil, if_true]
      exact ih fun pr hpr => hb pr (List.mem_cons_of_mem _ hpr)

/-- A person holding one header record whose only set attribute,
`call_sign`, is the empty string, and an empty amateur bucket. -/
def C2person : Person :=
  ⟨[(.header, [⟨.header, [("call_sign", "")]⟩]), (.amateur, [⟨.amateur, []⟩])]⟩

theorem spec_C2_witness : Person.getattr C2person "call_sign" = "-" :=
  spec_C2 C2person "call_sign" (by decide)

/-- C3: transforms are applied only at read time.  A `Record` built by
`Record.from_line` stores the raw zipped field values, and a person whose
`Entity` record stores the raw `entity_name` value `"john smith"` resolves
the `entity_name` field to the title-cased `"John Smith"` when it is
requested. -/
theorem spec_C3 (line : String)
    (h : (Record.from_line .entity line).getAttr "entity_name" = some "john smith") :
    (Record.from_line .entity line).fields = Entity.FIELDS.zip (pySplit '|' line)
  ∧ Person.getattr ⟨[(.entity, [Record.from_line .entity line])]⟩ "entity_name"
      = "John Smith" := by
  refine ⟨rfl, ?_⟩
  have hb : bucketEntries "entity_name" [Record.from_line .entity line]
      = [titleize "john smith"] := by
    simp only [bucketEntries, List.filterMap_cons, List.filterMap_nil, h]
    simp [Record.from_line, applyTRANSFORMS, recordTRANSFORMS, Entity.TRANSFORMS,
      assocLookup]
  show getattrGo "entity_name" [(.entity, [Record.from_line .entity line])] = "John Smith"
  simp only [getattrGo, hb, List.isEmpty_cons, Bool.false_eq_true, if_false]
  decide

theorem spec_C3_witness :
    Person.getattr ⟨[(.entity, [Record.from_line .entity "EN|1|||K|P|L|john smith"])]⟩
      "entity_name" = "John Smith" :=
  (spec_C3 "EN|1|||K|P|L|john smith" (by decide)).2

/-- C4: parsing splits each line on `|` and zips positionally against the
schema's field list (fewer columns: trailing schema fields unset; more
columns: excess dropped), and a successfully read file yields one record per
non-empty line, in file order. -/
theorem spec_C4 (rt : RecordType) (content line : String) :
    Record.load_file rt (FileOutcome.ok content)
      = .ok (((pySplit '\n' content).filter fun l => l != "").map (Record.from_line rt))
  ∧ (Record.from_line rt line).fields = (recordFIELDS rt).zip (pySplit '|' line)
  ∧ ((pySplit '|' line).length ≤ (recordFIELDS rt).length →
      (Record.from_line rt line).fields.map Prod.fst
        = (recordFIELDS rt).take (pySplit '|' line).length)
  ∧ ((recordFIELDS rt).length ≤ (pySplit '|' line).length →
      (Record.from_line rt line).fields.map Prod.snd
        = (pySplit '|' line).take (recordFIELDS rt).length) :=
  ⟨rfl, rfl, fun _ => map_fst_zip_take _ _, fun _ => map_snd_zip_take _ _⟩

theorem spec_C4_witness :
    (Record.from_line .vanity "VC|7|x").fields.map Prod.fst
      = (recordFIELDS .vanity).take (pySplit '|' "VC|7|x").length :=
  (spec_C4 .vanity "" "VC|7|x").2.2.1 (by decide)

/-- C6 counterexample: a permission error during `open` is an `IOError` in
Python 3, so `Record.load_file` converts it to `RecordNonexistentException`
instead of letting it propagate as itself — refuting the claim that any
I/O failure other than nonexistence propagates uncaught. -/
theorem spec_C6_counterexample :
    Record.load_file .header FileOutcome.permission = .error .RecordNonexistentException
  ∧ Record.load_file .header FileOutcome.permission ≠ .error .PermissionError :=
  ⟨rfl, by decide⟩

/-- C6 (amended): `Record.load_file` raises `RecordNonexistentException`
exactly when opening the file fails with an `IOError` — which covers both a
missing file and other I/O failures such as permission errors; no I/O
failure propagates as itself.  A readable file parses normally. -/
theorem spec_C6_amended_load (rt : RecordType) (f : FileOutcome) :
    (Record.load_file rt f = .error .RecordNonexistentException ↔
      f = .missing ∨ f = .permission)
  ∧ ∀ c, f = FileOutcome.ok c → Record.load_file rt f = .ok (parseContent rt c) := by
  cases f <;> simp [Record.load_file, openFile, PyExc.isIOError]

theorem spec_C6_witness :
    Record.load_file .amateur (FileOutcome.ok "AM|5") = .ok (parseContent .amateur "AM|5") :=
  (spec_C6_amended_load .amateur (FileOutcome.ok "AM|5")).2 "AM|5" rfl

/-- C7: an extracted archive with at most one entry is reported to the user
and the run exits with code 1; otherwise processing continues and, when the
people collection builds, the run returns normally with exit code 0. -/
theorem spec_C7 (entries : List String) (fs : RecordType → FileOutcome)
    (oc : Option String) :
    (entries.length ≤ 1 → print_data entries fs oc = .ok ⟨1, some incompleteMsg, []⟩)
  ∧ (1 < entries.length → ∀ ppl, People.from_folder fs = .ok ppl →
      ∃ rows, print_data entries fs oc = .ok ⟨0, none, rows⟩) := by
  constructor
  · intro h
    simp [print_data, h]
  · intro h ppl hppl
    rw [print_data, if_neg (by omega), hppl]
    exact ⟨_, rfl⟩

theorem spec_C7_witness :
    print_data ["counts"] (fun _ => FileOutcome.missing) none
      = .ok ⟨1, some incompleteMsg, []⟩ :=
  (spec_C7 ["counts"] (fun _ => FileOutcome.missing) none).1 (by decide)

/-- C9: `Header.FIELDS` repeats `reserved` (and `broadcast_services`), so
the `dict` built in `Record.from_line` keeps only the later occurrence's
column: with at least 21 columns the stored `reserved` value is column 21
(1-indexed), and every retrievable value comes from a position other than
11, so column 12's value is unreachable. -/
theorem spec_C9 (line : String) (h : 21 ≤ (pySplit '|' line).length) :
    (Record.from_line .header line).getAttr "reserved" = (pySplit '|' line)[20]?
  ∧ (48 ≤ (pySplit '|' line).length →
      (Record.from_line .header line).getAttr "broadcast_services"
        = (pySplit '|' line)[47]?)
  ∧ ∀ f v, (Record.from_line .header line).getAttr f = some v →
      ∃ i, i ≠ 11 ∧ Header.FIELDS[i]? = some f ∧ (pySplit '|' line)[i]? = some v := by
  refine ⟨?_, ?_, ?_⟩
  · show lastLookup "reserved" (Header.FIELDS.zip (pySplit '|' line)) = _
    exact lastLookup_zip_of_get _ _ _ 20 (by decide) (by decide) (by omega)
  · intro h48
    show lastLookup "broadcast_services" (Header.FIELDS.zip (pySplit '|' line)) = _
    exact lastLookup_zip_of_get _ _ _ 47 (by decide) (by decide) (by omega)
  · intro f v hf
    have hf' : lastLookup f (Header.FIELDS.zip (pySplit '|' line)) = some v := hf
    obtain ⟨n, hn1, hn2, hn3⟩ := lastLookup_zip_some _ _ _ _ hf'
    refine ⟨n, ?_, hn1, hn2⟩
    intro hn11
    subst hn11
    have hf11 : f = "reserved" := by
      have h11 : Header.FIELDS[11]? = some "reserved" := by decide
      rw [h11] at hn1
      simpa using hn1.symm
    have h20 : Header.FIELDS[20]? = some f := by rw [hf11]; decide
    have := hn3 20 (by omega) h20
    omega

theorem spec_C9_witness :
    (Record.from_line .header
        "HD|1|2|3|4|5|6|7|8|9|10|r11|12|13|14|15|16|17|18|19|r20").getAttr "reserved"
      = (pySplit '|' "HD|1|2|3|4|5|6|7|8|9|10|r11|12|13|14|15|16|17|18|19|r20")[20]? :=
  (spec_C9 "HD|1|2|3|4|5|6|7|8|9|10|r11|12|13|14|15|16|17|18|19|r20" (by decide)).1

/-- C10: `People.__str__` reads `self.records`, but `People.__init__` only
defines `people`, so converting any `People` instance to a string raises
`AttributeError` instead of returning a string. -/
theorem spec_C10 (ppl : People) : People.str ppl = .error .AttributeError := by
  simp [People.str, People.lookupAttr]

/-! ### Unfolding lemmas for the `from_folder` loop -/

theorem ffg_cons_skip (fs : RecordType → FileOutcome) (rt : RecordType)
    (rest : List RecordType) (ppl : List (String × Person))
    (h : Record.load_file rt (fs rt) = .error .RecordNonexistentException) :
    People.from_folder_go fs (rt :: rest) ppl = People.from_folder_go fs rest ppl := by
  simp [People.from_folder_go, h]

theorem ffg_cons_err (fs : RecordType → FileOutcome) (rt : RecordType)
    (rest : List RecordType) (ppl : List (String × Person)) (e : PyExc)
    (h : Record.load_file rt (fs rt) = .error e) (hne : e ≠ .RecordNonexistentException) :
    People.from_folder_go fs (rt :: rest) ppl = .error e := by
  simp only [People.from_folder_go, h, hne, if_false]

theorem ffg_cons_ok (fs : RecordType → FileOutcome) (rt : RecordType)
    (rest : List RecordType) (ppl : List (String × Person)) (rs : List Record)
    (ppl2 : List (String × Person)) (h1 : Record.load_file rt (fs rt) = .ok rs)
    (h2 : People.load_records ppl rt rs = .ok ppl2) :
    People.from_folder_go fs (rt :: rest) ppl = People.from_folder_go fs rest ppl2 := by
  simp only [People.from_folder_go, h1, h2]

theorem ffg_cons_lr_skip (fs : RecordType → FileOutcome) (rt : RecordType)
    (rest : List RecordType) (ppl : List (String × Person)) (rs : List Record)
    (h1 : Record.load_file rt (fs rt) = .ok rs)
    (h2 : People.load_records ppl rt rs = .error .RecordNonexistentException) :
    People.from_folder_go fs (rt :: rest) ppl = People.from_folder_go fs rest ppl := by
  simp [People.from_folder_go, h1, h2]

theorem ffg_cons_lr_err (fs : RecordType → FileOutcome) (rt : RecordType)
    (rest : List RecordType) (ppl : List (String × Person)) (rs : List Record) (e : PyExc)
    (h1 : Record.load_file rt (fs rt) = .ok rs)
    (h2 : People.load_records ppl rt rs = .error e)
    (hne : e ≠ .RecordNonexistentException) :
    People.from_folder_go fs (rt :: rest) ppl = .error e := by
  simp only [People.from_folder_go, h1, h2, hne, if_false]

/-! ### C5: missing files are skipped, the rest are processed -/

theorem from_folder_go_filter (fs : RecordType → FileOutcome) :
    ∀ (todo : List RecordType) (ppl : List (String × Person)),
    People.from_folder_go fs todo ppl
      = People.from_folder_go fs (todo.filter (isPresent fs)) ppl := by
  intro todo
  induction todo with
  | nil => intro ppl; rfl
  | cons rt rest ih =>
      intro ppl
      rw [List.filter_cons]
      cases hfs : fs rt with
      | missing =>
          rw [ffg_cons_skip fs rt rest ppl (by rw [hfs]; rfl)]
          rw [show isPresent fs rt = false from by simp [isPresent, hfs]]
          simp only [Bool.false_eq_true, if_false]
          exact ih ppl
      | permission =>
          rw [ffg_cons_skip fs rt rest ppl (by rw [hfs]; rfl)]
          rw [show isPresent fs rt = false from by simp [isPresent, hfs]]
          simp only [Bool.false_eq_true, if_false]
          exact ih ppl
      | ok c =>
          rw [show isPresent fs rt = true from by simp [isPresent, hfs]]
          simp only [if_true]
          have hld : Record.load_file rt (fs rt) = .ok (parseContent rt c) := by
            rw [hfs]; rfl
          cases hlr : People.load_records ppl rt (parseContent rt c) with
          | error e =>
              by_cases he : e = .RecordNonexistentException
              · subst he
                rw [ffg_cons_lr_skip fs rt rest ppl _ hld hlr,
                  ffg_cons_lr_skip fs rt (rest.filter (isPresent fs)) ppl _ hld hlr]
                exact ih ppl
              · rw [ffg_cons_lr_err fs rt rest ppl _ e hld hlr he,
                  ffg_cons_lr_err fs rt (rest.filter (isPresent fs)) ppl _ e hld hlr he]
          | ok ppl2 =>
              rw [ffg_cons_ok fs rt rest ppl _ ppl2 hld hlr,
                ffg_cons_ok fs rt (rest.filter (isPresent fs)) ppl _ ppl2 hld hlr]
              exact ih ppl2

theorem load_records_ok (rt : RecordType) :
    ∀ (rs : List Record) (ppl : List (String × Person)),
    (∀ r ∈ rs, (Record.getAttr r "unique_system_identifier").isSome = true) →
    ∃ ppl2, People.load_records ppl rt rs = .ok ppl2 := by
  intro rs
  induction rs with
  | nil => intro ppl _; exact ⟨ppl, rfl⟩
  | cons r rest ih =>
      intro ppl h
      obtain ⟨ident, hident⟩ := Option.isSome_iff_exists.mp (h r (List.mem_cons_self _ _))
      rw [People.load_records, hident]
      exact ih _ fun r2 h2 => h r2 (List.mem_cons_of_mem _ h2)

theorem from_folder_go_ok (fs : RecordType → FileOutcome) :
    ∀ (todo : List RecordType) (ppl : List (String × Person)),
    (∀ rt ∈ todo, ∀ r ∈ loadedRecords fs rt,
      (Record.getAttr r "unique_system_identifier").isSome = true) →
    ∃ res, People.from_folder_go fs todo ppl = .ok res := by
  intro todo
  induction todo with
  | nil => intro ppl _; exact ⟨ppl, rfl⟩
  | cons rt rest ih =>
      intro ppl h
      have hrest : ∀ rt2 ∈ rest, ∀ r ∈ loadedRecords fs rt2,
          (Record.getAttr r "unique_system_identifier").isSome = true :=
        fun rt2 h2 => h rt2 (List.mem_cons_of_mem _ h2)
      cases hfs : fs rt with
      | missing =>
          rw [ffg_cons_skip fs rt rest ppl (by rw [hfs]; rfl)]
          exact ih ppl hrest
      | permission =>
          rw [ffg_cons_skip fs rt rest ppl (by rw [hfs]; rfl)]
          exact ih ppl hrest
      | ok c =>
          have hld : Record.load_file rt (fs rt) = .ok (parseContent rt c) := by
            rw [hfs]; rfl
          have hrecs : ∀ r ∈ parseContent rt c,
              (Record.getAttr r "unique_system_identifier").isSome = true := by
            intro r hr
            have := h rt (List.mem_cons_self _ _) r
            rw [loadedRecords, hfs] at this
            exact this hr
          obtain ⟨ppl2, hppl2⟩ := load_records_ok rt (parseContent rt c) ppl hrecs
          rw [ffg_cons_ok fs rt rest ppl _ ppl2 hld hppl2]
          exact ih ppl2 hrest

/-- C5: building the people collection never fails because a file is
missing: the run equals the run over just the present record types (each
absent type's `RecordNonexistentException` is caught and the type skipped,
processing continuing with the remaining types), and when every present
file's records carry identifiers the build succeeds. -/
theorem spec_C5 (fs : RecordType → FileOutcome) :
    People.from_folder fs
      = (People.from_folder_go fs (presentTypes fs) []).map People.mk
  ∧ (wellKeyed fs = true → ∃ ppl, People.from_folder fs = .ok ppl) := by
  constructor
  · rw [People.from_folder, presentTypes, from_folder_go_filter]
  · intro hw
    have h : ∀ rt ∈ RECORD_TYPES, ∀ r ∈ loadedRecords fs rt,
        (Record.getAttr r "unique_system_identifier").isSome = true := by
      rw [wellKeyed, List.all_eq_true] at hw
      intro rt hrt r hr
      have := hw rt hrt
      rw [List.all_eq_true] at this
      exact this r hr
    obtain ⟨res, hres⟩ := from_folder_go_ok fs RECORD_TYPES [] h
    exact ⟨⟨res⟩, by rw [People.from_folder, hres]; rfl⟩

/-- A folder holding only the header file. -/
def C5fs : RecordType → FileOutcome := fun rt =>
  match rt with
  | .header => .ok "HD|77"
  | _ => .missing

theorem spec_C5_witness : ∃ ppl, People.from_folder C5fs = .ok ppl :=
  (spec_C5 C5fs).2 (by decide)

open List

/-! ### C1: bucket insertion order follows the fixed processing sequence -/

theorem addToBucket_keys (bs : List (RecordType × List Record)) (rt : RecordType)
    (r : Record) :
    (addToBucket bs rt r).map Prod.fst
      = if rt ∈ bs.map Prod.fst then bs.map Prod.fst else bs.map Prod.fst ++ [rt] := by
  induction bs with
  | nil => simp [addToBucket]
  | cons b rest ih =>
      obtain ⟨rt2, rs⟩ := b
      by_cases hrt : rt2 = rt
      · subst hrt
        simp [addToBucket]
      · simp only [addToBucket, if_neg hrt, List.map_cons]
        rw [ih]
        by_cases hm : rt ∈ rest.map Prod.fst
        · rw [if_pos hm, if_pos (by simp [hm])]
        · rw [if_neg hm, if_neg (by simp [hm, Ne.symm hrt]), List.cons_append]

theorem sublist_of_concat_not_mem {α : Type} {l L : List α} (h : l <+ L) :
    ∀ {l₂ : List α} {a : α}, L = l₂ ++ [a] → a ∉ l → l <+ l₂ := by
  induction h with
  | slnil =>
      intro l₂ a hL _
      simp at hL
  | cons b hsub ih =>
      intro l₂ a hL hna
      cases l₂ with
      | nil =>
          simp at hL
          obtain ⟨hb, hL'⟩ := hL
          subst hL'
          rw [List.sublist_nil] at hsub
          subst hsub
          exact List.nil_sublist _
      | cons c l₂'' =>
          simp at hL
          obtain ⟨hb, hL'⟩ := hL
          exact List.Sublist.cons c (ih hL' hna)
  | cons₂ b hsub ih =>
      intro l₂ a hL hna
      cases l₂ with
      | nil =>
          simp at hL
          obtain ⟨hb, hL'⟩ := hL
          subst hb
          exact absurd (List.mem_cons_self _ _) hna
      | cons c l₂'' =>
          simp at hL
          obtain ⟨hb, hL'⟩ := hL
          subst hb
          have hna' : a ∉ _ := fun hm => hna (List.mem_cons_of_mem _ hm)
          exact List.Sublist.cons₂ _ (ih hL' hna')

theorem add_record_keys_sub {p : Person} {done : List RecordType} {rt : RecordType}
    {r : Record} (h : p.records.map Prod.fst <+ done ++ [rt]) :
    (p.add_record rt r).records.map Prod.fst <+ done ++ [rt] := by
  show (addToBucket p.records rt r).map Prod.fst <+ done ++ [rt]
  rw [addToBucket_keys]
  by_cases hm : rt ∈ p.records.map Prod.fst
  · rw [if_pos hm]; exact h
  · rw [if_neg hm]
    exact (sublist_of_concat_not_mem h rfl hm).append (List.Sublist.refl [rt])

theorem insertRecord_mem_cases {ppl : List (String × Person)} {ident : String}
    {rt : RecordType} {r : Record} {pr : String × Person}
    (h : pr ∈ insertRecord ppl ident rt r) :
    pr ∈ ppl
  ∨ (pr.1 = ident ∧ ∃ p0, (ident, p0) ∈ ppl ∧ pr.2 = p0.add_record rt r)
  ∨ (pr.1 = ident ∧ pr.2 = Person.add_record ⟨[]⟩ rt r) := by
  induction ppl with
  | nil =>
      simp only [insertRecord, List.mem_singleton] at h
      right; right
      rw [h]
      exact ⟨rfl, rfl⟩
  | cons hd tl ih =>
      obtain ⟨id2, p⟩ := hd
      by_cases hid : id2 = ident
      · subst hid
        simp only [insertRecord, if_pos rfl] at h
        rcases List.mem_cons.mp h with hh | hh
        · right; left
          rw [hh]
          exact ⟨rfl, p, List.mem_cons_self _ _, rfl⟩
        · left; exact List.mem_cons_of_mem _ hh
      · simp only [insertRecord, if_neg hid] at h
        rcases List.mem_cons.mp h with hh | hh
        · left
          rw [hh]
          exact List.mem_cons_self _ _
        · rcases ih hh with h1 | ⟨h1, p0, h2, h3⟩ | h1
          · exact Or.inl (List.mem_cons_of_mem _ h1)
          · exact Or.inr (Or.inl ⟨h1, p0, List.mem_cons_of_mem _ h2, h3⟩)
          · exact Or.inr (Or.inr h1)

theorem insertRecord_keys_inv {ppl : List (String × Person)} {ident : String}
    {rt : RecordType} {r : Record} {done : List RecordType}
    (hinv : ∀ pr ∈ ppl, pr.2.records.map Prod.fst <+ done ++ [rt]) :
    ∀ pr ∈ insertRecord ppl ident rt r, pr.2.records.map Prod.fst <+ done ++ [rt] := by
  intro pr hpr
  rcases insertRecord_mem_cases hpr with h1 | ⟨-, p0, hp0, heq⟩ | ⟨-, heq⟩
  · exact hinv pr h1
  · rw [heq]
    exact add_record_keys_sub (hinv (ident, p0) hp0)
  · rw [heq]
    show (addToBucket [] rt r).map Prod.fst <+ done ++ [rt]
    exact List.sublist_append_right done [rt]

theorem load_records_keys (rt : RecordType) (done : List RecordType) :
    ∀ (rs : List Record) (ppl ppl2 : List (String × Person)),
    (∀ pr ∈ ppl, pr.2.records.map Prod.fst <+ done ++ [rt]) →
    People.load_records ppl rt rs = .ok ppl2 →
    ∀ pr ∈ ppl2, pr.2.records.map Prod.fst <+ done ++ [rt] := by
  intro rs
  induction rs with
  | nil =>
      intro ppl ppl2 hinv h
      simp only [People.load_records, Except.ok.injEq] at h
      subst h
      exact hinv
  | cons r rest ih =>
      intro ppl ppl2 hinv h
      rw [People.load_records] at h
      cases hid : r.getAttr "unique_system_identifier" with
      | none => rw [hid] at h; simp at h
      | some ident =>
          rw [hid] at h
          exact ih _ _ (insertRecord_keys_inv hinv) h

theorem from_folder_go_keys (fs : RecordType → FileOutcome) :
    ∀ (todo done : List RecordType) (ppl res : List (String × Person)),
    (∀ pr ∈ ppl, pr.2.records.map Prod.fst <+ done) →
    People.from_folder_go fs todo ppl = .ok res →
    ∀ pr ∈ res, pr.2.records.map Prod.fst <+ done ++ todo := by
  intro todo
  induction todo with
  | nil =>
      intro done ppl res hinv h
      simp only [People.from_folder_go, Except.ok.injEq] at h
      subst h
      rw [List.append_nil]
      exact hinv
  | cons rt rest ih =>
      intro done ppl res hinv h
      have hskip : People.from_folder_go fs rest ppl = .ok res →
          ∀ pr ∈ res, pr.2.records.map Prod.fst <+ done ++ rt :: rest := by
        intro h2 pr hpr
        exact (ih done ppl res hinv h2 pr hpr).trans
          ((List.sublist_cons_self rt rest).append_left done)
      cases hload : Record.load_file rt (fs rt) with
      | error e =>
          by_cases he : e = .RecordNonexistentException
          · subst he
            rw [ffg_cons_skip fs rt rest ppl hload] at h
            exact hskip h
          · rw [ffg_cons_err fs rt rest ppl e hload he] at h
            simp at h
      | ok rs =>
          cases hlr : People.load_records ppl rt rs with
          | error e =>
              by_cases he : e = .RecordNonexistentException
              · subst he
                rw [ffg_cons_lr_skip fs rt rest ppl rs hload hlr] at h
                exact hskip h
              · rw [ffg_cons_lr_err fs rt rest ppl rs e hload hlr he] at h
                simp at h
          | ok ppl2 =>
              rw [ffg_cons_ok fs rt rest ppl rs ppl2 hload hlr] at h
              have hinv2 : ∀ pr ∈ ppl2, pr.2.records.map Prod.fst <+ done ++ [rt] :=
                load_records_keys rt done rs ppl ppl2
                  (fun pr hpr => (hinv pr hpr).trans (List.sublist_append_left _ _)) hlr
              intro pr hpr
              have := ih (done ++ [rt]) ppl2 res hinv2 h pr hpr
              simpa using this

theorem assocLookup_cons_ne {α β : Type} [DecidableEq α] {k k2 : α} (v : β)
    (l : List (α × β)) (h : k2 ≠ k) :
    assocLookup k ((k2, v) :: l) = assocLookup k l := by
  simp [assocLookup, h]

theorem assocLookup_eq_none_of_not_mem {α β : Type} [DecidableEq α] {k : α}
    {l : List (α × β)} (h : k ∉ l.map Prod.fst) : assocLookup k l = none := by
  induction l with
  | nil => rfl
  | cons hd tl ih =>
      obtain ⟨k2, v⟩ := hd
      simp only [List.map_cons, List.mem_cons] at h
      push_neg at h
      rw [assocLookup_cons_ne v tl fun he => h.1 he.symm]
      exact ih h.2

theorem resolveSpecGo_nil (attr : String) :
    ∀ l : List RecordType, resolveSpecGo attr [] l = "-" := by
  intro l
  induction l with
  | nil => rfl
  | cons rt rest ih => simp [resolveSpecGo, assocLookup, ih]

theorem resolveSpecGo_cons_not_mem (attr : String) (rt : RecordType) (recs : List Record)
    (bs : List (RecordType × List Record)) :
    ∀ l : List RecordType, rt ∉ l →
    resolveSpecGo attr ((rt, recs) :: bs) l = resolveSpecGo attr bs l := by
  intro l
  induction l with
  | nil => intro _; rfl
  | cons rt2 rest ih =>
      intro hn
      have h1 : rt ≠ rt2 := fun he => hn (he ▸ List.mem_cons_self _ _)
      have hn' : rt ∉ rest := fun hm => hn (List.mem_cons_of_mem _ hm)
      simp only [resolveSpecGo]
      rw [assocLookup_cons_ne recs bs h1]
      cases hlk : assocLookup rt2 bs with
      | none => simp only [hlk]; exact ih hn'
      | some recs2 =>
          simp only [hlk]
          by_cases hemp : (bucketEntries attr recs2).isEmpty = true
          · simp only [hemp, if_true]
            exact ih hn'
          · simp [hemp]

theorem getattrGo_eq_resolveSpecGo (attr : String) :
    ∀ (l : List RecordType), l.Nodup →
    ∀ (buckets : List (RecordType × List Record)),
    buckets.map Prod.fst <+ l →
    getattrGo attr buckets = resolveSpecGo attr buckets l := by
  intro l
  induction l with
  | nil =>
      intro _ buckets hsub
      have hmap := List.sublist_nil.mp hsub
      have hb : buckets = [] := by
        cases buckets with
        | nil => rfl
        | cons b bs => simp at hmap
      subst hb
      rfl
  | cons rt rest ih =>
      intro hnd buckets hsub
      rw [List.nodup_cons] at hnd
      obtain ⟨hrtnotin, hndrest⟩ := hnd
      cases buckets with
      | nil => exact (resolveSpecGo_nil attr _).symm
      | cons b bs =>
          obtain ⟨rt1, recs⟩ := b
          simp only [List.map_cons] at hsub
          by_cases h1 : rt1 = rt
          · subst h1
            have hsub' : bs.map Prod.fst <+ rest := by
              cases hsub with
              | cons _ h3 => exact (List.sublist_cons_self rt1 (bs.map Prod.fst)).trans h3
              | cons₂ _ h3 => exact h3
            simp only [getattrGo, resolveSpecGo]
            rw [show assocLookup rt1 ((rt1, recs) :: bs) = some recs from by
              simp [assocLookup]]
            by_cases hemp : (bucketEntries attr recs).isEmpty = true
            · simp only [hemp, if_true]
              rw [resolveSpecGo_cons_not_mem attr rt1 recs bs rest hrtnotin]
              exact ih hndrest bs hsub'
            · simp [hemp]
          · have hsub' : (rt1 :: bs.map Prod.fst) <+ rest := by
              cases hsub with
              | cons _ h3 => exact h3
              | cons₂ _ h3 => exact absurd rfl h1
            have hrtnot : rt ∉ ((rt1, recs) :: bs).map Prod.fst := by
              simp only [List.map_cons]
              intro hm
              exact hrtnotin (hsub'.subset hm)
            simp only [resolveSpecGo]
            rw [assocLookup_eq_none_of_not_mem hrtnot]
            exact ih hndrest ((rt1, recs) :: bs) (by simpa using hsub')

/-- C1: for every person built by `People.from_folder` and every requested
field name, `Person.__getattr__` iterates the person's buckets in the fixed
order header, amateur, entity, vanity, joins the non-empty transformed
values of the first bucket that has any with `", "`, and never lets a later
record type override a value resolved from an earlier one — it agrees with
the specification's fixed-order resolution `resolveSpec`. -/
theorem spec_C1 (fs : RecordType → FileOutcome) (ppl : People)
    (h : People.from_folder fs = .ok ppl) (ident : String) (p : Person)
    (hp : (ident, p) ∈ ppl.people) (attr : String) :
    Person.getattr p attr = resolveSpec p attr := by
  cases hres : People.from_folder_go fs RECORD_TYPES [] with
  | error e =>
      rw [People.from_folder, hres] at h
      simp [Except.map] at h
  | ok l =>
      rw [People.from_folder, hres] at h
      simp only [Except.map, Except.ok.injEq] at h
      subst h
      have hkeys := from_folder_go_keys fs RECORD_TYPES [] [] l
        (by intro pr hpr; simp at hpr) hres (ident, p) hp
      have hsub : p.records.map Prod.fst <+ RECORD_TYPES := by simpa using hkeys
      exact getattrGo_eq_resolveSpecGo attr RECORD_TYPES (by decide) p.records hsub

/-- A folder holding a header and an entity record for the same person. -/
def C1fs : RecordType → FileOutcome := fun rt =>
  match rt with
  | .header => .ok "HD|10|U1||KE8AAA"
  | .entity => .ok "EN|10|||KE8AAA||L1|maria diaz"
  | _ => .missing

/-- The people collection the example folder builds. -/
def C1ppl : People := (People.from_folder C1fs).toOption.getD ⟨[]⟩

/-- The single person in the example collection. -/
def C1person : Person := ((C1ppl.people.head?.map Prod.snd).getD ⟨[]⟩)

theorem spec_C1_witness :
    Person.getattr C1person "call_sign" = resolveSpec C1person "call_sign" :=
  spec_C1 C1fs C1ppl (by decide) "10" C1person (by decide) "call_sign"

/-! ### C8: identifier-keyed insertion invariants -/

/-- Every record stored under a person is keyed by that person's
identifier. -/
def RecordsKeyed (ppl : List (String × Person)) : Prop :=
  ∀ pr ∈ ppl, ∀ br ∈ pr.2.records, ∀ r ∈ br.2,
    Record.getAttr r "unique_system_identifier" = some pr.1

/-- The collection invariant: identifiers are pairwise distinct, stored
records are keyed by their person's identifier, and every person holds at
least one record. -/
def PplInv (ppl : List (String × Person)) : Prop :=
  (ppl.map Prod.fst).Nodup ∧ RecordsKeyed ppl ∧ ∀ pr ∈ ppl, pr.2.records ≠ []

theorem addToBucket_ne_nil (bs : List (RecordType × List Record)) (rt : RecordType)
    (r : Record) : addToBucket bs rt r ≠ [] := by
  cases bs with
  | nil => simp [addToBucket]
  | cons b rest =>
      obtain ⟨bt, brs⟩ := b
      by_cases hbt : bt = rt <;> simp [addToBucket, hbt]

theorem addToBucket_mem_cases {bs : List (RecordType × List Record)} {rt rt2 : RecordType}
    {r r2 : Record} {recs2 : List Record}
    (hmem : (rt2, recs2) ∈ addToBucket bs rt r) (hr2 : r2 ∈ recs2) :
    (∃ recs0, (rt2, recs0) ∈ bs ∧ r2 ∈ recs0) ∨ (rt2 = rt ∧ r2 = r) := by
  induction bs with
  | nil =>
      simp only [addToBucket, List.mem_singleton, Prod.mk.injEq] at hmem
      obtain ⟨h1, h2⟩ := hmem
      subst h2
      right
      exact ⟨h1, by simpa using hr2⟩
  | cons b rest ih =>
      obtain ⟨bt, brs⟩ := b
      by_cases hbt : bt = rt
      · subst hbt
        simp only [addToBucket, if_pos rfl] at hmem
        rcases List.mem_cons.mp hmem with h | h
        · rw [Prod.mk.injEq] at h
          obtain ⟨h1, h2⟩ := h
          subst h2
          rcases List.mem_append.mp hr2 with h3 | h3
          · left
            exact ⟨brs, by rw [h1]; exact List.mem_cons_self _ _, h3⟩
          · right
            exact ⟨h1, by simpa using h3⟩
        · left
          exact ⟨recs2, List.mem_cons_of_mem _ h, hr2⟩
      · simp only [addToBucket, if_neg hbt] at hmem
        rcases List.mem_cons.mp hmem with h | h
        · left
          exact ⟨recs2, h ▸ List.mem_cons_self _ _, hr2⟩
        · rcases ih h with ⟨recs0, hm, hr⟩ | hcase
          · left; exact ⟨recs0, List.mem_cons_of_mem _ hm, hr⟩
          · right; exact hcase

theorem addToBucket_self (bs : List (RecordType × List Record)) (rt : RecordType)
    (r : Record) : ∃ recs, (rt, recs) ∈ addToBucket bs rt r ∧ r ∈ recs := by
  induction bs with
  | nil => exact ⟨[r], by simp [addToBucket], by simp⟩
  | cons b rest ih =>
      obtain ⟨bt, brs⟩ := b
      by_cases hbt : bt = rt
      · subst hbt
        exact ⟨brs ++ [r], by simp [addToBucket], by simp⟩
      · obtain ⟨recs, hm, hr⟩ := ih
        refine ⟨recs, ?_, hr⟩
        simp only [addToBucket, if_neg hbt]
        exact List.mem_cons_of_mem _ hm

theorem addToBucket_mono {bs : List (RecordType × List Record)} {rt2 : RecordType}
    {recs2 : List Record} {r2 : Record} (rt : RecordType) (r : Record)
    (hmem : (rt2, recs2) ∈ bs) (hr2 : r2 ∈ recs2) :
    ∃ recs3, (rt2, recs3) ∈ addToBucket bs rt r ∧ r2 ∈ recs3 := by
  induction bs with
  | nil => simp at hmem
  | cons b rest ih =>
      obtain ⟨bt, brs⟩ := b
      by_cases hbt : bt = rt
      · subst hbt
        rcases List.mem_cons.mp hmem with h | h
        · rw [Prod.mk.injEq] at h
          obtain ⟨h1, h2⟩ := h
          refine ⟨brs ++ [r], ?_, List.mem_append.mpr (Or.inl (h2 ▸ hr2))⟩
          simp only [addToBucket, if_pos rfl]
          rw [h1]
          exact List.mem_cons_self _ _
        · refine ⟨recs2, ?_, hr2⟩
          simp only [addToBucket, if_pos rfl]
          exact List.mem_cons_of_mem _ h
      · rcases List.mem_cons.mp hmem with h | h
        · refine ⟨recs2, ?_, hr2⟩
          simp only [addToBucket, if_neg hbt]
          exact h ▸ List.mem_cons_self _ _
        · obtain ⟨recs3, hm3, hr3⟩ := ih h
          refine ⟨recs3, ?_, hr3⟩
          simp only [addToBucket, if_neg hbt]
          exact List.mem_cons_of_mem _ hm3

theorem insertRecord_self (ppl : List (String × Person)) (ident : String)
    (rt : RecordType) (r : Record) :
    PeopleContains (insertRecord ppl ident rt r) ident rt r := by
  induction ppl with
  | nil =>
      refine ⟨Person.add_record ⟨[]⟩ rt r, [r], ?_, ?_, by simp⟩
      · simp [insertRecord]
      · show (rt, [r]) ∈ addToBucket [] rt r
        simp [addToBucket]
  | cons hd tl ih =>
      obtain ⟨id2, p⟩ := hd
      by_cases hid : id2 = ident
      · subst hid
        obtain ⟨recs, hm, hr⟩ := addToBucket_self p.records rt r
        refine ⟨p.add_record rt r, recs, ?_, hm, hr⟩
        simp only [insertRecord, if_pos rfl]
        exact List.mem_cons_self _ _
      · obtain ⟨p2, recs, hm1, hm2, hr⟩ := ih
        refine ⟨p2, recs, ?_, hm2, hr⟩
        simp only [insertRecord, if_neg hid]
        exact List.mem_cons_of_mem _ hm1

theorem insertRecord_mono {ppl : List (String × Person)} {i2 : String} {rt2 : RecordType}
    {r2 : Record} (ident : String) (rt : RecordType) (r : Record)
    (h : PeopleContains ppl i2 rt2 r2) :
    PeopleContains (insertRecord ppl ident rt r) i2 rt2 r2 := by
  obtain ⟨p, recs, hm1, hm2, hr⟩ := h
  induction ppl with
  | nil => simp at hm1
  | cons hd tl ih =>
      obtain ⟨id3, p3⟩ := hd
      by_cases hid : id3 = ident
      · subst hid
        rcases List.mem_cons.mp hm1 with hh | hh
        · rw [Prod.mk.injEq] at hh
          obtain ⟨h1, h2⟩ := hh
          obtain ⟨recs3, hm3, hr3⟩ := addToBucket_mono rt r (show (rt2, recs) ∈ p3.records
            from h2 ▸ hm2) hr
          refine ⟨p3.add_record rt r, recs3, ?_, hm3, hr3⟩
          simp only [insertRecord, if_pos rfl]
          rw [h1]
          exact List.mem_cons_self _ _
        · refine ⟨p, recs, ?_, hm2, hr⟩
          simp only [insertRecord, if_pos rfl]
          exact List.mem_cons_of_mem _ hh
      · rcases List.mem_cons.mp hm1 with hh | hh
        · refine ⟨p, recs, ?_, hm2, hr⟩
          simp only [insertRecord, if_neg hid]
          exact hh ▸ List.mem_cons_self _ _
        · obtain ⟨p4, recs4, a4, b4, c4⟩ := ih hh
          refine ⟨p4, recs4, ?_, b4, c4⟩
          simp only [insertRecord, if_neg hid]
          exact List.mem_cons_of_mem _ a4

theorem insertRecord_keysList (ppl : List (String × Person)) (ident : String)
    (rt : RecordType) (r : Record) :
    (insertRecord ppl ident rt r).map Prod.fst
      = if ident ∈ ppl.map Prod.fst then ppl.map Prod.fst
        else ppl.map Prod.fst ++ [ident] := by
  induction ppl with
  | nil => simp [insertRecord]
  | cons hd tl ih =>
      obtain ⟨id2, p⟩ := hd
      by_cases hid : id2 = ident
      · subst hid
        simp [insertRecord]
      · simp only [insertRecord, if_neg hid, List.map_cons]
        rw [ih]
        by_cases hm : ident ∈ tl.map Prod.fst
        · rw [if_pos hm, if_pos (by simp [hm])]
        · rw [if_neg hm, if_neg (by simp [hm, Ne.symm hid]), List.cons_append]

theorem insertRecord_inv {ppl : List (String × Person)} {ident : String}
    {rt : RecordType} {r : Record} (h : PplInv ppl)
    (hr : Record.getAttr r "unique_system_identifier" = some ident) :
    PplInv (insertRecord ppl ident rt r) := by
  obtain ⟨hnd, hK, hne⟩ := h
  refine ⟨?_, ?_, ?_⟩
  · rw [insertRecord_keysList]
    by_cases hm : ident ∈ ppl.map Prod.fst
    · rw [if_pos hm]; exact hnd
    · rw [if_neg hm]
      refine hnd.append (List.nodup_singleton _) ?_
      intro x hx hxi
      rw [List.mem_singleton] at hxi
      subst hxi
      exact hm hx
  · intro pr hpr br hbr r2 hr2
    rcases insertRecord_mem_cases hpr with h1 | ⟨hpr1, p0, hp0, heq⟩ | ⟨hpr1, heq⟩
    · exact hK pr h1 br hbr r2 hr2
    · rw [heq] at hbr
      rcases addToBucket_mem_cases (show (br.1, br.2) ∈ addToBucket p0.records rt r
          from hbr) hr2 with ⟨recs0, hm0, hro⟩ | ⟨-, hreq⟩
      · exact hK (ident, p0) hp0 (br.1, recs0) hm0 r2 hro ▸ by rw [hpr1]
      · rw [hreq, hr, hpr1]
    · rw [heq] at hbr
      rcases addToBucket_mem_cases (show (br.1, br.2) ∈ addToBucket [] rt r
          from hbr) hr2 with ⟨recs0, hm0, hro⟩ | ⟨-, hreq⟩
      · simp at hm0
      · rw [hreq, hr, hpr1]
  · intro pr hpr
    rcases insertRecord_mem_cases hpr with h1 | ⟨-, p0, hp0, heq⟩ | ⟨-, heq⟩
    · exact hne pr h1
    · rw [heq]
      exact addToBucket_ne_nil p0.records rt r
    · rw [heq]
      exact addToBucket_ne_nil [] rt r

theorem load_records_error_attr (rt : RecordType) :
    ∀ (rs : List Record) (ppl : List (String × Person)) (e : PyExc),
    People.load_records ppl rt rs = .error e → e = .AttributeError := by
  intro rs
  induction rs with
  | nil => intro ppl e h; simp [People.load_records] at h
  | cons r rest ih =>
      intro ppl e h
      rw [People.load_records] at h
      cases hid : r.getAttr "unique_system_identifier" with
      | none =>
          rw [hid] at h
          simp only [Except.error.injEq] at h
          exact h.symm
      | some ident =>
          rw [hid] at h
          exact ih _ _ h

theorem load_records_inv (rt : RecordType) :
    ∀ (rs : List Record) (ppl ppl2 : List (String × Person)),
    PplInv ppl → People.load_records ppl rt rs = .ok ppl2 →
    PplInv ppl2
  ∧ (∀ i2 rt2 r2, PeopleContains ppl i2 rt2 r2 → PeopleContains ppl2 i2 rt2 r2)
  ∧ ∀ r ∈ rs, ∀ ident, Record.getAttr r "unique_system_identifier" = some ident →
      PeopleContains ppl2 ident rt r := by
  intro rs
  induction rs with
  | nil =>
      intro ppl ppl2 hinv h
      simp only [People.load_records, Except.ok.injEq] at h
      subst h
      exact ⟨hinv, fun _ _ _ hc => hc, by simp⟩
  | cons r rest ih =>
      intro ppl ppl2 hinv h
      rw [People.load_records] at h
      cases hid : r.getAttr "unique_system_identifier" with
      | none => rw [hid] at h; simp at h
      | some ident =>
          rw [hid] at h
          obtain ⟨hinv2, hmono2, hnew2⟩ :=
            ih (insertRecord ppl ident rt r) ppl2 (insertRecord_inv hinv hid) h
          refine ⟨hinv2, ?_, ?_⟩
          · intro i2 rt2 r2 hc
            exact hmono2 _ _ _ (insertRecord_mono ident rt r hc)
          · intro r3 hr3 ident3 hid3
            rcases List.mem_cons.mp hr3 with h3 | h3
            · subst h3
              have hi3 : ident3 = ident := by
                rw [hid] at hid3
                simpa using hid3.symm
              subst hi3
              exact hmono2 _ _ _ (insertRecord_self ppl ident3 rt r3)
            · exact hnew2 r3 h3 ident3 hid3

theorem from_folder_go_inv (fs : RecordType → FileOutcome) :
    ∀ (todo : List RecordType) (ppl res : List (String × Person)),
    PplInv ppl → People.from_folder_go fs todo ppl = .ok res →
    PplInv res
  ∧ (∀ i2 rt2 r2, PeopleContains ppl i2 rt2 r2 → PeopleContains res i2 rt2 r2)
  ∧ ∀ rt ∈ todo, ∀ c, fs rt = FileOutcome.ok c →
      ∀ r ∈ parseContent rt c, ∀ ident,
        Record.getAttr r "unique_system_identifier" = some ident →
        PeopleContains res ident rt r := by
  intro todo
  induction todo with
  | nil =>
      intro ppl res hinv h
      simp only [People.from_folder_go, Except.ok.injEq] at h
      subst h
      exact ⟨hinv, fun _ _ _ hc => hc, by simp⟩
  | cons rt rest ih =>
      intro ppl res hinv h
      cases hload : Record.load_file rt (fs rt) with
      | error e =>
          by_cases he : e = .RecordNonexistentException
          · subst he
            rw [ffg_cons_skip fs rt rest ppl hload] at h
            obtain ⟨h1, h2, h3⟩ := ih ppl res hinv h
            refine ⟨h1, h2, ?_⟩
            intro rt2 hrt2 c hc r hr ident hident
            rcases List.mem_cons.mp hrt2 with hh | hh
            · subst hh
              rw [hc] at hload
              simp [Record.load_file, openFile] at hload
            · exact h3 rt2 hh c hc r hr ident hident
          · rw [ffg_cons_err fs rt rest ppl e hload he] at h
            simp at h
      | ok rs =>
          cases hlr : People.load_records ppl rt rs with
          | error e =>
              have hattr := load_records_error_attr rt rs ppl e hlr
              subst hattr
              rw [ffg_cons_lr_err fs rt rest ppl rs _ hload hlr (by decide)] at h
              simp at h
          | ok ppl2 =>
              rw [ffg_cons_ok fs rt rest ppl rs ppl2 hload hlr] at h
              obtain ⟨hinvL, hmonoL, hnewL⟩ := load_records_inv rt rs ppl ppl2 hinv hlr
              obtain ⟨h1, h2, h3⟩ := ih ppl2 res hinvL h
              refine ⟨h1, fun i2 rt2 r2 hc => h2 _ _ _ (hmonoL _ _ _ hc), ?_⟩
              intro rt2 hrt2 c hc r hr ident hident
              rcases List.mem_cons.mp hrt2 with hh | hh
              · subst hh
                rw [hc] at hload
                have hrs : rs = parseContent rt2 c := by
                  simp only [Record.load_file, openFile, Except.ok.injEq] at hload
                  exact hload.symm
                subst hrs
                exact h2 _ _ _ (hnewL r hr ident hident)
              · exact h3 rt2 hh c hc r hr ident hident

/-- C8: identifier uniqueness is an invariant of the built collection —
the person keys are pairwise distinct, every person created holds at least
one record (persons exist only by implicit default construction at a first
insertion), every stored record is keyed by its own
`unique_system_identifier`, and every loaded record is stored under exactly
that one identifier's person. -/
theorem spec_C8 (fs : RecordType → FileOutcome) (ppl : People)
    (h : People.from_folder fs = .ok ppl) :
    (ppl.people.map Prod.fst).Nodup
  ∧ (∀ pr ∈ ppl.people, pr.2.records ≠ [] ∧
      ∀ br ∈ pr.2.records, ∀ r ∈ br.2,
        Record.getAttr r "unique_system_identifier" = some pr.1)
  ∧ ∀ rt c, fs rt = FileOutcome.ok c →
      ∀ r ∈ parseContent rt c, ∀ ident,
        Record.getAttr r "unique_system_identifier" = some ident →
        PeopleContains ppl.people ident rt r := by
  cases hres : People.from_folder_go fs RECORD_TYPES [] with
  | error e =>
      rw [People.from_folder, hres] at h
      simp [Except.map] at h
  | ok l =>
      rw [People.from_folder, hres] at h
      simp only [Except.map, Except.ok.injEq] at h
      subst h
      have hinv0 : PplInv [] :=
        ⟨by simp, by intro pr hpr; simp at hpr, by intro pr hpr; simp at hpr⟩
      obtain ⟨⟨hnd, hkeyed, hne⟩, -, hnew⟩ :=
        from_folder_go_inv fs RECORD_TYPES [] l hinv0 hres
      refine ⟨hnd, ?_, ?_⟩
      · intro pr hpr
        exact ⟨hne pr hpr, fun br hbr r hr => hkeyed pr hpr br hbr r hr⟩
      · intro rt c hc r hr ident hident
        have hrtmem : rt ∈ RECORD_TYPES := by cases rt <;> simp [RECORD_TYPES]
        exact hnew rt hrtmem c hc r hr ident hident

/-- A folder with two header records for distinct people and one vanity
record for the first person. -/
def C8fs : RecordType → FileOutcome := fun rt =>
  match rt with
  | .header => .ok "HD|7|U7\nHD|8|U8"
  | .vanity => .ok "VC|7|||1|W1AW"
  | _ => .missing

/-- The people collection the C8 example folder builds. -/
def C8ppl : People := (People.from_folder C8fs).toOption.getD ⟨[]⟩

theorem spec_C8_witness : (C8ppl.people.map Prod.fst).Nodup :=
  (spec_C8 C8fs C8ppl (by decide)).1
